import Mathlib

/-!
# Verification of the Melopoēsis suggestion-orchestration core

Shallow embedding of the suggestion-orchestration engine of the Melopoēsis
poetry assistant (`src/app/page.tsx` and `src/ai/types.ts`), together with
proofs and refutations of the specification's claims about it.

`src/app/page.tsx` in the snapshot contains two revisions of the `Home`
component separated by a document marker:
* the current revision (sequential "final"-mode review with
  `currentSuggestionIndex`, `advanceToNextSuggestion`, `applyCorrection`,
  `handleAccept`, `handleDismiss`, `handleResuggest`,
  `handleToggleExcludedPhrase`), and
* an earlier revision (gradual mode, with `checkActiveSuggestion` and a
  `handleResuggest` that also records the returned `correctedText` in
  `excludedPhrasesMap`).
Both are embedded below; definitions from the earlier revision carry the
suffix `V2` (for `checkActiveSuggestion`, which only exists there, no
suffix is needed).

Documents are modelled as `List Char` (JS strings).  `String.prototype.replace`
with a string pattern and a string replacement is embedded faithfully,
including the ECMAScript `GetSubstitution` handling of `$$`, `$&`, `` $` ``
and `$'` in the replacement string (with a string search value there are no
capture groups, so all other `$` sequences are literal).
-/

namespace Melopoesis

/-- A JS string, as a list of characters. -/
abbrev Str := List Char

/-- `occursAt pat hay i`: `pat` occurs in `hay` starting at index `i`. -/
def occursAt (pat hay : Str) (i : Nat) : Prop := pat <+: hay.drop i

instance (pat hay : Str) (i : Nat) : Decidable (occursAt pat hay i) := by
  unfold occursAt; infer_instance

/-- JS `hay.indexOf(pat)`: index of the first occurrence of `pat` in `hay`,
`none` when there is no occurrence (JS returns `-1`). -/
def jsIndexOf (hay pat : Str) : Option Nat :=
  if pat.isPrefixOf hay then some 0
  else
    match hay with
    | [] => none
    | _ :: t => (jsIndexOf t pat).map (· + 1)

/-- JS `hay.includes(pat)` / "`pat` is a substring of `hay`". -/
def isSubstring (pat hay : Str) : Prop := pat <:+: hay

instance (pat hay : Str) : Decidable (isSubstring pat hay) := by
  unfold isSubstring; infer_instance

theorem jsIndexOf_eq_some {hay pat : Str} {i : Nat}
    (h : jsIndexOf hay pat = some i) :
    occursAt pat hay i ∧ ∀ j < i, ¬ occursAt pat hay j := by
  induction hay generalizing i with
  | nil =>
    unfold jsIndexOf at h
    by_cases hp : pat.isPrefixOf ([] : Str)
    · simp [hp] at h
      subst h
      refine ⟨?_, by omega⟩
      simpa [occursAt] using List.isPrefixOf_iff_prefix.mp hp
    · simp [hp] at h
  | cons c t ih =>
    unfold jsIndexOf at h
    by_cases hp : pat.isPrefixOf (c :: t)
    · simp [hp] at h
      subst h
      refine ⟨?_, by omega⟩
      simpa [occursAt] using List.isPrefixOf_iff_prefix.mp hp
    · simp [hp] at h
      obtain ⟨i', hi', rfl⟩ := h
      obtain ⟨h1, h2⟩ := ih hi'
      refine ⟨by simpa [occursAt] using h1, ?_⟩
      intro j hj
      cases j with
      | zero =>
        intro hc
        exact hp (List.isPrefixOf_iff_prefix.mpr (by simpa [occursAt] using hc))
      | succ j' =>
        intro hc
        exact h2 j' (by omega) (by simpa [occursAt] using hc)

theorem jsIndexOf_eq_none {hay pat : Str}
    (h : jsIndexOf hay pat = none) : ∀ i, ¬ occursAt pat hay i := by
  induction hay with
  | nil =>
    unfold jsIndexOf at h
    by_cases hp : pat.isPrefixOf ([] : Str)
    · simp [hp] at h
    · intro i hc
      unfold occursAt at hc
      simp at hc
      exact hp (List.isPrefixOf_iff_prefix.mpr (by simp [hc]))
  | cons c t ih =>
    unfold jsIndexOf at h
    by_cases hp : pat.isPrefixOf (c :: t)
    · simp [hp] at h
    · simp [hp] at h
      intro i hc
      cases i with
      | zero =>
        exact hp (List.isPrefixOf_iff_prefix.mpr (by simpa [occursAt] using hc))
      | succ i' =>
        exact ih h i' (by simpa [occursAt] using hc)

theorem isSubstring_iff_exists_occursAt {pat hay : Str} :
    isSubstring pat hay ↔ ∃ i, occursAt pat hay i := by
  constructor
  · rintro ⟨s, t, rfl⟩
    refine ⟨s.length, ?_⟩
    unfold occursAt
    simp [List.drop_append_of_le_length]
  · rintro ⟨i, p, hp⟩
    exact ⟨hay.take i, p, by
      rw [List.append_assoc, hp]; exact List.take_append_drop i hay⟩

theorem jsIndexOf_isSome_of_isSubstring {pat hay : Str}
    (h : isSubstring pat hay) : ∃ i, jsIndexOf hay pat = some i := by
  cases hj : jsIndexOf hay pat with
  | none =>
    obtain ⟨i, hi⟩ := isSubstring_iff_exists_occursAt.mp h
    exact absurd hi (jsIndexOf_eq_none hj i)
  | some i => exact ⟨i, rfl⟩

theorem jsIndexOf_le_length {hay pat : Str} {i : Nat}
    (h : jsIndexOf hay pat = some i) : i + pat.length ≤ hay.length := by
  induction hay generalizing i with
  | nil =>
    unfold jsIndexOf at h
    by_cases hp : pat.isPrefixOf ([] : Str)
    · simp [hp] at h
      subst h
      have := (List.isPrefixOf_iff_prefix.mp hp).length_le
      simpa using this
    · simp [hp] at h
  | cons c t ih =>
    unfold jsIndexOf at h
    by_cases hp : pat.isPrefixOf (c :: t)
    · simp [hp] at h
      subst h
      have := (List.isPrefixOf_iff_prefix.mp hp).length_le
      simpa using this
    · simp [hp] at h
      obtain ⟨i', hi', rfl⟩ := h
      have := ih hi'
      simp
      omega

/-! ## JS `String.prototype.replace` with a string pattern

`doc.replace(pat, repl)` finds the first occurrence of `pat` and replaces it
with `GetSubstitution(pat, doc, pos, [], undefined, repl)`.  With a string
search value there are no capture groups, so in the replacement string only
`$$`, `$&`, `` $` `` and `$'` are special; every other `$` sequence is kept
literally.  If `pat` does not occur, the string is returned unchanged. -/

/-- ECMAScript `GetSubstitution` for a string search value: `m` is the matched
text (the search string itself), `b` the portion of the document before the
match, `a` the portion after it.  `Char.ofNat 96` is the backquote and
`Char.ofNat 39` the single quote. -/
def getSub (m b a : Str) : Str → Str
  | [] => []
  | [c] => [c]
  | c :: d :: rest =>
    if c = '$' then
      if d = '$' then '$' :: getSub m b a rest
      else if d = '&' then m ++ getSub m b a rest
      else if d = Char.ofNat 96 then b ++ getSub m b a rest
      else if d = Char.ofNat 39 then a ++ getSub m b a rest
      else c :: getSub m b a (d :: rest)
    else c :: getSub m b a (d :: rest)

/-- JS `doc.replace(pat, repl)` (string pattern, string replacement). -/
def jsReplace (doc pat repl : Str) : Str :=
  match jsIndexOf doc pat with
  | none => doc
  | some i =>
    doc.take i ++ getSub pat (doc.take i) (doc.drop (i + pat.length)) repl
      ++ doc.drop (i + pat.length)

/-- A replacement string containing no `$` is substituted verbatim. -/
theorem getSub_of_no_dollar (m b a : Str) :
    ∀ repl : Str, (∀ ch ∈ repl, ch ≠ '$') → getSub m b a repl = repl
  | [], _ => rfl
  | [_], _ => rfl
  | c :: d :: rest, h => by
    have hc : ¬ c = '$' := h c (by simp)
    have ih := getSub_of_no_dollar m b a (d :: rest)
      (fun ch hch => h ch (List.mem_cons_of_mem c hch))
    simp only [getSub, if_neg hc]
    rw [ih]

/-! ## Data model (`src/ai/types.ts` and component state of `Home`) -/

/-- The `type` discriminator of a suggestion: `'grammar' | 'tone'`. -/
inductive SugKind
  | grammar
  | tone
deriving DecidableEq, Repr

/-- `TextStructure = "poesia" | "poema"`. -/
inductive TextStructure
  | poema
  | poesia
deriving DecidableEq, Repr

/-- `SuggestionSchema`: one proposed edit returned by the oracle. -/
structure Suggestion where
  originalText : Str
  correctedText : Str
  explanation : Str
  type : SugKind
deriving DecidableEq, Repr

/-- `suggestionType` of an oracle request: `'all' | 'grammar' | 'tone'`. -/
inductive ReqSugType
  | all
  | grammar
  | tone
deriving DecidableEq, Repr

/-- `SuggestionInputSchema`: the normalized oracle request.  The source field
named `structure` is rendered here as `textStructure` (`structure` is a Lean
keyword). -/
structure SuggestionInput where
  text : Str
  tone : Str
  textStructure : TextStructure
  rhyme : Bool
  suggestionType : ReqSugType
  excludedPhrases : List Str
deriving DecidableEq, Repr

/-- The user-visible toast calls of the current `Home` revision, identified by
call site. -/
inductive Notice
  | textChangedDiscard
  | grammarFound (n : Nat)
  | noGrammarFetchingTone
  | toneFound (n : Nat)
  | noTone
  | genError
  | grammarDoneFetchingTone
  | resugNoAlternative
  | resugError
deriving DecidableEq, Repr

/-- An oracle call in flight, with the values its closure captured when it was
dispatched. -/
inductive PendingReq
  | gen (sType : SugKind) (input : SuggestionInput)
  | resug (s : Suggestion) (capturedIdx : Option Nat) (input : SuggestionInput)
deriving DecidableEq, Repr

/-- `excludedPhrasesMap : Record<string, string[]>`, as an association list.
JS object spread `{...prev, [k]: v}` keeps an existing key in place and
appends a fresh one. -/
abbrev ExclMap := List (Str × List Str)

/-- `prev[originalText] || []`. -/
def lookupExcl (m : ExclMap) (k : Str) : List Str :=
  match m.find? (fun e => e.1 == k) with
  | some e => e.2
  | none => []

/-- `{...prev, [k]: v}`. -/
def setExcl (m : ExclMap) (k : Str) (v : List Str) : ExclMap :=
  if m.any (fun e => e.1 == k) then
    m.map (fun e => if e.1 == k then (k, v) else e)
  else m ++ [(k, v)]

/-- `handleToggleExcludedPhrase` (current revision, and identically the
earlier one): toggles `phrase` in the entry of `originalText`. -/
def handleToggleExcludedPhrase (m : ExclMap) (originalText phrase : Str) :
    ExclMap :=
  let currentExcluded := lookupExcl m originalText
  let newExcluded :=
    if phrase ∈ currentExcluded then
      currentExcluded.filter (fun p => p != phrase)
    else currentExcluded ++ [phrase]
  setExcl m originalText newExcluded

/-- The component state of the current `Home` revision, plus the multiset of
oracle calls in flight (`pending`) and the toasts issued so far (`notices`),
which in the source live in the runtime rather than in React state. -/
structure AppState where
  text : Str
  tone : Str
  textStructure : TextStructure
  rhyme : Bool
  grammarSuggestions : List Suggestion
  toneSuggestions : List Suggestion
  currentSuggestionIndex : Option Nat
  isLoading : Bool
  excludedPhrasesMap : ExclMap
  pending : List PendingReq
  notices : List Notice
deriving DecidableEq, Repr

/-- `activeGrammarSuggestion = currentSuggestionIndex !== null ?
grammarSuggestions[currentSuggestionIndex] : null`. -/
def activeGrammarSuggestion (st : AppState) : Option Suggestion :=
  match st.currentSuggestionIndex with
  | some i => st.grammarSuggestions.get? i
  | none => none

/-- The initial component state. -/
def initState : AppState where
  text := []
  tone := "Melancólico".data
  textStructure := TextStructure.poema
  rhyme := false
  grammarSuggestions := []
  toneSuggestions := []
  currentSuggestionIndex := none
  isLoading := false
  excludedPhrasesMap := []
  pending := []
  notices := []

/-! ## Handlers of the current `Home` revision

Handlers are embedded as pure functions on `AppState`.  Each handler runs
atomically (the source is single-threaded; all `setX` updates of one handler
are batched into one re-render).  An `await` on the oracle is modelled by
pushing a `PendingReq` carrying the values the closure captured; a separate
resolution event later applies the continuation. -/

/-- JS `text.trim()`. -/
def jsTrim (s : Str) : Str :=
  ((s.dropWhile Char.isWhitespace).reverse.dropWhile Char.isWhitespace).reverse

/-- `resetSuggestions`. -/
def resetSuggestions (st : AppState) : AppState :=
  { st with
    grammarSuggestions := []
    toneSuggestions := []
    currentSuggestionIndex := none }

/-- `handleTextChange` (current revision: `suggestionMode` is `"final"`, so no
debounced fetch is started). -/
def handleTextChange (st : AppState) (newText : Str) : AppState :=
  resetSuggestions { st with text := newText }

/-- `handleToneChange` = set the tone, then `handleConfigChange` =
`resetSuggestions`. -/
def handleToneChange (st : AppState) (newTone : Str) : AppState :=
  resetSuggestions { st with tone := newTone }

/-- `handleTextStructureChange`. -/
def handleTextStructureChange (st : AppState) (s : TextStructure) : AppState :=
  resetSuggestions { st with textStructure := s }

/-- `handleRhymeChange`. -/
def handleRhymeChange (st : AppState) (b : Bool) : AppState :=
  resetSuggestions { st with rhyme := b }

/-- The synchronous prefix of `generateSuggestions(suggestionType)` up to the
`await`: sets `isLoading` and dispatches the oracle call, whose request is
built from the values captured by the closure (`text`, `tone`,
`textStructure`, `rhyme`, with `excludedPhrases: []`). -/
def generateSuggestionsStart (st : AppState) (sType : SugKind) : AppState :=
  { st with
    isLoading := true
    pending := st.pending ++ [PendingReq.gen sType {
      text := st.text
      tone := st.tone
      textStructure := st.textStructure
      rhyme := st.rhyme
      suggestionType :=
        match sType with
        | SugKind.grammar => ReqSugType.grammar
        | SugKind.tone => ReqSugType.tone
      excludedPhrases := [] }] }

/-- `handleGenerateSuggestions`: the explicit "generate" click.  Early-returns
when the trimmed text is empty or a fetch is already loading; otherwise clears
both lists and the review index and starts the grammar fetch. -/
def handleGenerateSuggestions (st : AppState) : AppState :=
  if jsTrim st.text = [] ∨ st.isLoading then st
  else generateSuggestionsStart (resetSuggestions st) SugKind.grammar

/-- The continuation of `generateSuggestions` that runs when the oracle call
resolves successfully.  `input` is the request the closure captured at
dispatch time.

The source's staleness guard reads

  `const currentText = text; ... if (text !== currentText) { discard }`

where both `currentText` and the later read of `text` denote the same
closure-captured value, so the guard compares `input.text` with itself and the
discard branch is unreachable.  It is embedded verbatim below.

When a grammar fetch returns no suggestions the handler directly invokes
`generateSuggestions('tone')` from the same closure, so the tone request
captures the same `text`/config values; the outer `finally` only runs after
the nested call completes, so `isLoading` stays `true` until the tone
response resolves. -/
def generateSuggestionsResolve (st : AppState) (sType : SugKind)
    (input : SuggestionInput) (result : List Suggestion) : AppState :=
  if input.text ≠ input.text then
    -- `if (text !== currentText)`: never taken, see above.
    { st with
      notices := st.notices ++ [Notice.textChangedDiscard]
      isLoading := false }
  else
    match sType with
    | SugKind.grammar =>
      if result.length > 0 then
        { st with
          grammarSuggestions := result
          currentSuggestionIndex := some 0
          notices := st.notices ++ [Notice.grammarFound result.length]
          isLoading := false }
      else
        -- nested `await generateSuggestions('tone')`: the tone request is
        -- built from the same closure-captured values as the grammar request
        { st with
          grammarSuggestions := result
          notices := st.notices ++ [Notice.noGrammarFetchingTone]
          isLoading := true
          pending := st.pending ++ [PendingReq.gen SugKind.tone
            { input with
              suggestionType := ReqSugType.tone
              excludedPhrases := [] }] }
    | SugKind.tone =>
      { st with
        toneSuggestions := result
        notices := st.notices ++
          [if result.length > 0 then Notice.toneFound result.length
           else Notice.noTone]
        isLoading := false }

/-- The `catch`/`finally` path of `generateSuggestions` on an oracle failure:
a destructive toast, `isLoading := false`, no suggestion state touched. -/
def generateSuggestionsFail (st : AppState) : AppState :=
  { st with
    notices := st.notices ++ [Notice.genError]
    isLoading := false }

/-- `advanceToNextSuggestion`.  Computes the next review index from the
closure-captured `currentSuggestionIndex` and `grammarSuggestions.length`;
after the last suggestion it clears the grammar list and starts the tone
fetch (whose request captures the closure's — render-time — `text`). -/
def advanceToNextSuggestion (st : AppState) : AppState :=
  let nextIndex : Option Nat :=
    match st.currentSuggestionIndex with
    | some i =>
      if i < st.grammarSuggestions.length - 1 then some (i + 1) else none
    | none => none
  let st1 := { st with currentSuggestionIndex := nextIndex }
  if nextIndex = none ∧ st.grammarSuggestions.length > 0 ∧
      st.currentSuggestionIndex = some (st.grammarSuggestions.length - 1) then
    generateSuggestionsStart
      { st1 with
        grammarSuggestions := []
        notices := st1.notices ++ [Notice.grammarDoneFetchingTone] }
      SugKind.tone
  else st1

/-- `applyCorrection`: `setText(prev => prev.replace(o, c))` followed by
`advanceToNextSuggestion()`.  The advance (and the tone fetch it may start)
runs in closures holding the render-time state, in which the `setText` update
is not yet visible; since the advance itself never reads `text`, this is
modelled by advancing on the pre-replacement state and then applying the text
update. -/
def applyCorrection (st : AppState) (o c : Str) : AppState :=
  { advanceToNextSuggestion st with text := jsReplace st.text o c }

/-- `handleAccept`. -/
def handleAccept (st : AppState) (s : Suggestion) : AppState :=
  match s.type with
  | SugKind.grammar => applyCorrection st s.originalText s.correctedText
  | SugKind.tone =>
    { st with
      text := jsReplace st.text s.originalText s.correctedText
      toneSuggestions :=
        st.toneSuggestions.filter (fun x => x.originalText != s.originalText) }

/-- `handleDismiss`. -/
def handleDismiss (st : AppState) (s : Suggestion) : AppState :=
  match s.type with
  | SugKind.grammar => advanceToNextSuggestion st
  | SugKind.tone =>
    { st with
      toneSuggestions :=
        st.toneSuggestions.filter (fun x => x.originalText != s.originalText) }

/-- The synchronous prefix of `handleResuggest` (current revision): looks up
the exclusions recorded for the suggestion's `originalText`, sets
`isLoading`, and dispatches an oracle call whose request text is exactly the
suggestion's `originalText`.  The closure captures `currentSuggestionIndex`
as of this render. -/
def handleResuggestStart (st : AppState) (s : Suggestion) : AppState :=
  let excludedPhrases := lookupExcl st.excludedPhrasesMap s.originalText
  { st with
    isLoading := true
    pending := st.pending ++ [PendingReq.resug s st.currentSuggestionIndex {
      text := s.originalText
      tone := st.tone
      textStructure := st.textStructure
      rhyme := st.rhyme
      suggestionType :=
        match s.type with
        | SugKind.grammar => ReqSugType.grammar
        | SugKind.tone => ReqSugType.tone
      excludedPhrases := excludedPhrases }] }

/-- `newSuggestions[i] = v` on a copy of the list, as in the grammar branch of
`handleResuggest`.  For `i < length` this replaces in place; for `i = length`
it appends (a dense JS array).  A captured index beyond the length would
create a sparse JS array with holes; no such resolution is modelled (the
step relation disables it), and no claim concerns those states. -/
def jsArraySet (l : List Suggestion) (i : Nat) (v : Suggestion) :
    List Suggestion :=
  if i < l.length then l.set i v else l ++ [v]

/-- The continuation of `handleResuggest` on a successful oracle response:
`result.suggestions[0]`, if present, replaces the matching suggestion — at
the captured review index for a grammar suggestion, by `originalText` in the
tone list otherwise; with an empty response only a toast is shown.  The
current revision never writes to `excludedPhrasesMap` here. -/
def handleResuggestResolve (st : AppState) (s : Suggestion)
    (capturedIdx : Option Nat) (result : List Suggestion) : AppState :=
  let st := { st with isLoading := false }
  match result.head? with
  | some newSuggestion =>
    match s.type, capturedIdx with
    | SugKind.grammar, some i =>
      { st with
        grammarSuggestions := jsArraySet st.grammarSuggestions i newSuggestion }
    | _, _ =>
      { st with
        toneSuggestions := st.toneSuggestions.map
          (fun x => if x.originalText == s.originalText then newSuggestion
                    else x) }
  | none =>
    { st with notices := st.notices ++ [Notice.resugNoAlternative] }

/-- The `catch` path of `handleResuggest`. -/
def handleResuggestFail (st : AppState) : AppState :=
  { st with
    notices := st.notices ++ [Notice.resugError]
    isLoading := false }

/-! ## The event system

One event is one atomic reaction: a user action routed to its handler (with
the argument wiring of the JSX: accept/dismiss/resuggest on the active
grammar suggestion come from the popover, tone actions from the suggestion
list), or the resolution of one oracle call in flight.  `step` yields `none`
when the event is impossible in the given state (no such pending call, no
active suggestion, an early-returning guard). -/

inductive Ev
  | generateClick
  | genResolveOk (j : Nat) (result : List Suggestion)
  | genResolveErr (j : Nat)
  | edit (newText : Str)
  | setTone (t : Str)
  | setStructure (x : TextStructure)
  | setRhyme (b : Bool)
  | acceptActive
  | dismissActive
  | resuggestActive
  | acceptTone (s : Suggestion)
  | dismissTone (s : Suggestion)
  | resuggestTone (s : Suggestion)
  | resugResolveOk (j : Nat) (result : List Suggestion)
  | resugResolveErr (j : Nat)
  | toggleExcluded (k p : Str)
deriving DecidableEq, Repr

/-- Remove the `j`-th pending request. -/
def removePending (st : AppState) (j : Nat) : AppState :=
  { st with pending := st.pending.eraseIdx j }

def step (st : AppState) (e : Ev) : Option AppState :=
  match e with
  | Ev.generateClick =>
    if jsTrim st.text = [] ∨ st.isLoading then none
    else some (handleGenerateSuggestions st)
  | Ev.genResolveOk j result =>
    match st.pending.get? j with
    | some (PendingReq.gen sType input) =>
      some (generateSuggestionsResolve (removePending st j) sType input result)
    | _ => none
  | Ev.genResolveErr j =>
    match st.pending.get? j with
    | some (PendingReq.gen _ _) =>
      some (generateSuggestionsFail (removePending st j))
    | _ => none
  | Ev.edit newText => some (handleTextChange st newText)
  | Ev.setTone t => some (handleToneChange st t)
  | Ev.setStructure x => some (handleTextStructureChange st x)
  | Ev.setRhyme b => some (handleRhymeChange st b)
  | Ev.acceptActive =>
    match activeGrammarSuggestion st with
    | some s => some (handleAccept st s)
    | none => none
  | Ev.dismissActive =>
    match activeGrammarSuggestion st with
    | some s => some (handleDismiss st s)
    | none => none
  | Ev.resuggestActive =>
    match activeGrammarSuggestion st with
    | some s => some (handleResuggestStart st s)
    | none => none
  | Ev.acceptTone s =>
    if s ∈ st.toneSuggestions then some (handleAccept st s) else none
  | Ev.dismissTone s =>
    if s ∈ st.toneSuggestions then some (handleDismiss st s) else none
  | Ev.resuggestTone s =>
    if s ∈ st.toneSuggestions then some (handleResuggestStart st s) else none
  | Ev.resugResolveOk j result =>
    match st.pending.get? j with
    | some (PendingReq.resug s capturedIdx _) =>
      match s.type, capturedIdx with
      | SugKind.grammar, some i =>
        if i ≤ st.grammarSuggestions.length then
          some (handleResuggestResolve (removePending st j) s capturedIdx
            result)
        else none
      | _, _ =>
        some (handleResuggestResolve (removePending st j) s capturedIdx result)
    | _ => none
  | Ev.resugResolveErr j =>
    match st.pending.get? j with
    | some (PendingReq.resug _ _ _) =>
      some (handleResuggestFail (removePending st j))
    | _ => none
  | Ev.toggleExcluded k p =>
    some { st with
      excludedPhrasesMap := handleToggleExcludedPhrase st.excludedPhrasesMap k p }

/-- Run a sequence of events; `none` when some event is impossible. -/
def run (st : AppState) : List Ev → Option AppState
  | [] => some st
  | e :: es =>
    match step st e with
    | some st' => run st' es
    | none => none

/-- A state is reachable from `s` via some event trace. -/
def ReachableFrom (s t : AppState) : Prop :=
  ∃ evs : List Ev, run s evs = some t

/-! ## Earlier `Home` revision (gradual mode)

Only the two functions cited by claims and absent from the current revision
are embedded: `fetchAndSetGradualSuggestions` (its merge of an `'all'`
response) and `checkActiveSuggestion`. -/

/-- The merge performed by `fetchAndSetGradualSuggestions` once its oracle
call returns: empty fetch text clears both lists; otherwise the grammar
suggestions of the response are stored and tone suggestions are stored only
when no grammar suggestion was returned.  Returns the pair
`(grammarSuggestions, toneSuggestions)`. -/
def fetchAndSetGradualSuggestions (fetchText : Str)
    (result : List Suggestion) : List Suggestion × List Suggestion :=
  if jsTrim fetchText = [] then ([], [])
  else
    let newGrammarSuggestions :=
      result.filter (fun s => s.type == SugKind.grammar)
    let newToneSuggestions := result.filter (fun s => s.type == SugKind.tone)
    (newGrammarSuggestions,
     if newGrammarSuggestions.length > 0 then [] else newToneSuggestions)

/-- `checkActiveSuggestion` (earlier revision): the suggestion whose
`originalText`, located by first-occurrence search in `text`, spans an
interval containing the cursor (both boundaries inclusive); suggestions whose
`originalText` does not occur are skipped (`startIndex === -1`); `none` when
the cursor is unavailable or nothing matches.  Returns the new
`activeGrammarSuggestion`. -/
def checkActiveSuggestion (text : Str) (cursorPosition : Option Nat)
    (grammarSuggestions : List Suggestion) : Option Suggestion :=
  match cursorPosition with
  | none => none
  | some cp =>
    if grammarSuggestions.length = 0 then none
    else
      grammarSuggestions.find? (fun s =>
        match jsIndexOf text s.originalText with
        | none => false
        | some startIndex =>
          decide (startIndex ≤ cp) &&
            decide (cp ≤ startIndex + s.originalText.length))

/-! ## Helper lemmas -/

theorem jsIndexOf_eq_some_iff {hay pat : Str} {i : Nat} :
    jsIndexOf hay pat = some i ↔
      occursAt pat hay i ∧ ∀ j < i, ¬ occursAt pat hay j := by
  constructor
  · exact jsIndexOf_eq_some
  · rintro ⟨h1, h2⟩
    cases hj : jsIndexOf hay pat with
    | none => exact absurd h1 (jsIndexOf_eq_none hj i)
    | some i' =>
      obtain ⟨h1', h2'⟩ := jsIndexOf_eq_some hj
      rcases Nat.lt_trichotomy i i' with h | h | h
      · exact absurd h1 (h2' i h)
      · rw [h]
      · exact absurd h1' (h2 i' h)

theorem drop_splice (A c B : Str) :
    (A ++ c ++ B).drop (A.length + c.length) = B := by
  have : A.length + c.length = (A ++ c).length := by simp
  rw [this, List.drop_left]

theorem take_splice (A c B : Str) :
    (A ++ c ++ B).take A.length = A := by
  rw [List.append_assoc, List.take_left]

theorem advance_notices (st : AppState) :
    (advanceToNextSuggestion st).notices = st.notices ∨
      (advanceToNextSuggestion st).notices =
        st.notices ++ [Notice.grammarDoneFetchingTone] := by
  unfold advanceToNextSuggestion generateSuggestionsStart
  dsimp only
  split <;> simp

/-! ## C1 — applying a correction

The claim states that applying a suggestion replaces exactly the first
occurrence of `originalText` with `correctedText`, and that when
`originalText` is absent the caller is notified of the no-op.  Both parts
fail on the source:

* `prevText.replace(originalText, correctedText)` substitutes JS `$`-patterns
  occurring in `correctedText` (ECMAScript `GetSubstitution`), so e.g.
  replacing `"ab"` by `"$$"` in `"ab"` yields `"$"`, not `"$$"`;
* `applyCorrection`/`handleAccept` issue no toast when `originalText` is not
  found — the document is returned unchanged, but the caller is not notified.

For a `correctedText` free of `$` the first-occurrence splice behaviour holds
exactly (`jsReplace_first_occurrence`). -/

/-- A grammar suggestion whose `originalText` does not occur in the document
of `missState`. -/
def missSug : Suggestion :=
  { originalText := ['a', 'b']
    correctedText := ['c', 'd']
    explanation := []
    type := SugKind.grammar }

/-- A session whose document does not contain `missSug.originalText`. -/
def missState : AppState := { initState with text := ['x', 'y'] }

/-- C1, counterexample: with `correctedText = "$$"` the result of the patch is
`"$"` — the document does not contain `correctedText` at the match position —
and accepting a suggestion whose `originalText` is absent leaves the document
unchanged without issuing any notice. -/
theorem C1_counterexample :
    isSubstring ['a', 'b'] ['a', 'b'] ∧
    jsReplace ['a', 'b'] ['a', 'b'] ['$', '$'] = ['$'] ∧
    ¬ occursAt ['$', '$'] (jsReplace ['a', 'b'] ['a', 'b'] ['$', '$']) 0 ∧
    (handleAccept missState missSug).text = missState.text ∧
    (handleAccept missState missSug).notices = [] := by
  decide

/-- C1 (amended): for a `correctedText` containing no `$`,
`prevText.replace(originalText, correctedText)` splices `correctedText` over
the first occurrence of `originalText` — the prefix before the match and the
suffix after it (hence all later occurrences) are unchanged — and when
`originalText` does not occur, the document is returned unchanged and the
caller is *not* notified (accepting only ever emits the end-of-review toast,
never a patch-target-missing notice). -/
theorem jsReplace_first_occurrence (D o c : Str)
    (hc : ∀ ch ∈ c, ch ≠ '$') :
    (∀ i, jsIndexOf D o = some i →
      jsReplace D o c = D.take i ++ c ++ D.drop (i + o.length) ∧
      occursAt o D i ∧ (∀ j < i, ¬ occursAt o D j) ∧
      (jsReplace D o c).take i = D.take i ∧
      (jsReplace D o c).drop (i + c.length) = D.drop (i + o.length)) ∧
    (isSubstring o D → ∃ i, jsIndexOf D o = some i) ∧
    (¬ isSubstring o D → jsReplace D o c = D) ∧
    (∀ (st : AppState) (s : Suggestion), s.type = SugKind.grammar →
      s.originalText = o → s.correctedText = c → ¬ isSubstring o D →
      st.text = D →
      (handleAccept st s).text = D ∧
      ∀ n ∈ (handleAccept st s).notices,
        n ∈ st.notices ∨ n = Notice.grammarDoneFetchingTone) := by
  have hnone : ¬ isSubstring o D → jsIndexOf D o = none := by
    intro hno
    cases hj : jsIndexOf D o with
    | none => rfl
    | some i =>
      exact absurd (isSubstring_iff_exists_occursAt.mpr
        ⟨i, (jsIndexOf_eq_some hj).1⟩) hno
  refine ⟨?_, jsIndexOf_isSome_of_isSubstring, ?_, ?_⟩
  · intro i hj
    obtain ⟨h1, h2⟩ := jsIndexOf_eq_some hj
    have hlen : i + o.length ≤ D.length := jsIndexOf_le_length hj
    have htake : (D.take i).length = i := by
      simp [List.length_take]
      omega
    have heq : jsReplace D o c = D.take i ++ c ++ D.drop (i + o.length) := by
      simp only [jsReplace, hj]
      rw [getSub_of_no_dollar _ _ _ c hc]
    refine ⟨heq, h1, h2, ?_, ?_⟩
    · rw [heq, List.append_assoc]
      exact List.take_left' htake
    · rw [heq]
      have := drop_splice (D.take i) c (D.drop (i + o.length))
      rw [htake] at this
      exact this
  · intro hno
    unfold jsReplace
    rw [hnone hno]
  · intro st s hty ho hcorr hno htext
    have htext' : (handleAccept st s).text = D := by
      unfold handleAccept
      rw [hty]
      unfold applyCorrection
      simp only [ho, hcorr, htext]
      unfold jsReplace
      rw [hnone hno]
    refine ⟨htext', ?_⟩
    intro n hn
    have hnot : (handleAccept st s).notices =
        (advanceToNextSuggestion st).notices := by
      unfold handleAccept
      rw [hty]
      rfl
    rw [hnot] at hn
    rcases advance_notices st with h | h
    · rw [h] at hn
      exact Or.inl hn
    · rw [h] at hn
      rcases List.mem_append.mp hn with h' | h'
      · exact Or.inl h'
      · simp at h'
        exact Or.inr h'

/-- C1, witness: the amended behaviour at a concrete input — in
`"abab"`, replacing `"ab"` by `"z"` patches only the first occurrence. -/
theorem C1_witness :
    (∀ ch ∈ (['z'] : Str), ch ≠ '$') ∧
    jsReplace ['a', 'b', 'a', 'b'] ['a', 'b'] ['z'] = ['z', 'a', 'b'] := by
  refine ⟨by decide, ?_⟩
  have h := (jsReplace_first_occurrence ['a', 'b', 'a', 'b'] ['a', 'b'] ['z']
    (by decide)).1 0 (by decide)
  rw [h.1]
  decide

/-! ## C2 and C7 — stale oracle responses are not discarded

`generateSuggestions` captures `const currentText = text` and, after the
`await`, tests `if (text !== currentText)` in order to discard the response
when the user kept typing.  Both `text` and `currentText` denote the same
closure-captured value, so the guard never fires; and no configuration field
is checked at all.  An in-flight response therefore mutates
`grammarSuggestions`/`toneSuggestions` even when the document (C2) or the
configuration (C7) changed after dispatch — the dead branch's own toast
("As sugestões foram descartadas") documents the intended discard. -/

/-- A concrete grammar suggestion returned by the oracle. -/
def sGram : Suggestion :=
  { originalText := ['a']
    correctedText := ['b']
    explanation := []
    type := SugKind.grammar }

/-- A session holding the one-character document `"a"`. -/
def startState : AppState := { initState with text := ['a'] }

/-- The request captured when the generate click dispatches from
`startState`. -/
def staleInput : SuggestionInput :=
  { text := ['a']
    tone := "Melancólico".data
    textStructure := TextStructure.poema
    rhyme := false
    suggestionType := ReqSugType.grammar
    excludedPhrases := [] }

/-- `startState` after a generate click followed by an edit to `"ab"` while
the grammar fetch is in flight. -/
def staleMid : AppState :=
  { initState with
    text := ['a', 'b']
    isLoading := true
    pending := [PendingReq.gen SugKind.grammar staleInput] }

/-- `staleMid` after the stale grammar response `[sGram]` resolves. -/
def staleFinal : AppState :=
  { staleMid with
    grammarSuggestions := [sGram]
    currentSuggestionIndex := some 0
    isLoading := false
    pending := []
    notices := [Notice.grammarFound 1] }

/-- C2 (code bug, evaluated at the failing input): the document changes from
`"a"` to `"ab"` while a grammar fetch for `"a"` is in flight; when the
response resolves it nonetheless mutates `grammarSuggestions` and the review
index, although the session text no longer matches the captured request
text. -/
theorem C2_stale_response_applied :
    run startState [Ev.generateClick, Ev.edit ['a', 'b']] = some staleMid ∧
    staleMid.pending = [PendingReq.gen SugKind.grammar staleInput] ∧
    staleMid.text ≠ staleInput.text ∧
    staleMid.grammarSuggestions = [] ∧
    staleMid.currentSuggestionIndex = none ∧
    step staleMid (Ev.genResolveOk 0 [sGram]) = some staleFinal ∧
    staleFinal.grammarSuggestions = [sGram] ∧
    staleFinal.currentSuggestionIndex = some 0 := by
  decide

/-- `startState` after a generate click followed by a tone-config change
(`"Melancólico"` → `"Alegre"`) while the grammar fetch is in flight. -/
def cfgMid : AppState :=
  { initState with
    text := ['a']
    tone := "Alegre".data
    isLoading := true
    pending := [PendingReq.gen SugKind.grammar staleInput] }

/-- `cfgMid` after the stale grammar response `[sGram]` resolves. -/
def cfgFinal : AppState :=
  { cfgMid with
    grammarSuggestions := [sGram]
    currentSuggestionIndex := some 0
    isLoading := false
    pending := []
    notices := [Notice.grammarFound 1] }

/-- C7 (code bug, evaluated at the failing input): a `SessionConfig` change
does clear both suggestion lists and the review index, but a request
dispatched under the old configuration is *not* prevented from applying —
its response still mutates `grammarSuggestions` (no epoch/config check
exists). -/
theorem C7_config_change_does_not_block_inflight :
    run startState [Ev.generateClick, Ev.setTone "Alegre".data] =
      some cfgMid ∧
    cfgMid.pending = [PendingReq.gen SugKind.grammar staleInput] ∧
    cfgMid.tone ≠ staleInput.tone ∧
    cfgMid.grammarSuggestions = [] ∧
    cfgMid.toneSuggestions = [] ∧
    cfgMid.currentSuggestionIndex = none ∧
    step cfgMid (Ev.genResolveOk 0 [sGram]) = some cfgFinal ∧
    cfgFinal.grammarSuggestions = [sGram] := by
  decide

/-! ## C3 — grammar gates tone

The claim: in every reachable state, `toneSuggestions` is non-empty only when
`grammarSuggestions` is empty.  The main flows maintain this, but a grammar
resuggest left in flight when the review ends can violate it: its resolution
writes the new suggestion at the *captured* review index into the (by then
cleared) grammar list, repopulating `grammarSuggestions` after the tone
response has filled `toneSuggestions`.  Without resuggest events the
invariant holds in every reachable state (`tone_gates_grammar_invariant`). -/

/-- A concrete tone suggestion returned by the oracle. -/
def sTone : Suggestion :=
  { originalText := ['c']
    correctedText := ['d']
    explanation := []
    type := SugKind.tone }

/-- The alternative grammar suggestion returned by the pending resuggest. -/
def sGram2 : Suggestion :=
  { originalText := ['a']
    correctedText := ['e']
    explanation := []
    type := SugKind.grammar }

/-- C3, counterexample: generate → one grammar suggestion → resuggest it
(call in flight) → dismiss it (review ends, tone fetch dispatched) → tone
response resolves → resuggest response resolves.  The final state has both
`grammarSuggestions = [sGram2]` and `toneSuggestions = [sTone]` non-empty. -/
theorem C3_counterexample :
    (run startState [Ev.generateClick, Ev.genResolveOk 0 [sGram],
        Ev.resuggestActive, Ev.dismissActive, Ev.genResolveOk 1 [sTone],
        Ev.resugResolveOk 0 [sGram2]]).map
      (fun st => (st.grammarSuggestions, st.toneSuggestions)) =
      some ([sGram2], [sTone]) ∧
    ([sGram2] : List Suggestion) ≠ [] ∧ ([sTone] : List Suggestion) ≠ [] := by
  decide

/-- Resuggest-related events (user resuggest clicks and resolutions of
resuggest oracle calls). -/
def Ev.isResuggestEv : Ev → Bool
  | Ev.resuggestActive => true
  | Ev.resuggestTone _ => true
  | Ev.resugResolveOk _ _ => true
  | Ev.resugResolveErr _ => true
  | _ => false

/-- The inductive invariant of the resuggest-free system: the tone gate
itself, strengthened with what must hold while a generate request is in
flight. -/
structure Inv (st : AppState) : Prop where
  toneGate : st.toneSuggestions ≠ [] → st.grammarSuggestions = []
  genGrammarPending : ∀ inp,
    PendingReq.gen SugKind.grammar inp ∈ st.pending →
    st.toneSuggestions = [] ∧ st.grammarSuggestions = [] ∧
      st.currentSuggestionIndex = none ∧ st.isLoading = true
  genTonePending : ∀ inp, PendingReq.gen SugKind.tone inp ∈ st.pending →
    st.grammarSuggestions = [] ∧ st.currentSuggestionIndex = none ∧
      st.isLoading = true
  noResug : ∀ s ci inp, PendingReq.resug s ci inp ∉ st.pending
  pendingLen : st.pending.length ≤ 1

theorem pending_nil_of_not_loading {st : AppState} (h : Inv st)
    (hl : st.isLoading = false) : st.pending = [] := by
  cases hp : st.pending with
  | nil => rfl
  | cons r rest =>
    exfalso
    have hr : r ∈ st.pending := by rw [hp]; exact List.mem_cons_self r rest
    cases r with
    | gen sType inp =>
      cases sType with
      | grammar =>
        have := (h.genGrammarPending inp hr).2.2.2
        rw [hl] at this
        exact Bool.false_ne_true this
      | tone =>
        have := (h.genTonePending inp hr).2.2
        rw [hl] at this
        exact Bool.false_ne_true this
    | resug s ci inp => exact h.noResug s ci inp hr

theorem pending_nil_of_idx {st : AppState} {i : Nat} (h : Inv st)
    (hi : st.currentSuggestionIndex = some i) : st.pending = [] := by
  cases hp : st.pending with
  | nil => rfl
  | cons r rest =>
    exfalso
    have hr : r ∈ st.pending := by rw [hp]; exact List.mem_cons_self r rest
    cases r with
    | gen sType inp =>
      cases sType with
      | grammar =>
        have := (h.genGrammarPending inp hr).2.2.1
        rw [hi] at this
        exact Option.noConfusion this
      | tone =>
        have := (h.genTonePending inp hr).2.1
        rw [hi] at this
        exact Option.noConfusion this
    | resug s ci inp => exact h.noResug s ci inp hr

theorem pending_singleton {st : AppState} {j : Nat} {r : PendingReq}
    (h : Inv st) (hj : st.pending.get? j = some r) :
    st.pending = [r] ∧ j = 0 := by
  have hlen := h.pendingLen
  have hjlt : j < st.pending.length := by
    by_contra hc
    push_neg at hc
    rw [List.get?_eq_none.mpr hc] at hj
    exact Option.noConfusion hj
  have hj0 : j = 0 := by omega
  subst hj0
  cases hp : st.pending with
  | nil => rw [hp] at hj; exact Option.noConfusion hj
  | cons a rest =>
    rw [hp] at hj
    simp at hj
    subst hj
    rw [hp] at hlen
    simp at hlen
    subst hlen
    exact ⟨rfl, rfl⟩

/-- A state with no tone suggestions and no pending request satisfies the
invariant outright. -/
theorem inv_of_nil {st : AppState} (htone : st.toneSuggestions = [])
    (hpend : st.pending = []) : Inv st := by
  refine ⟨fun hne => (hne htone).elim, ?_, ?_, ?_, ?_⟩
  · intro inp hmem
    rw [hpend] at hmem
    exact absurd hmem (List.not_mem_nil _)
  · intro inp hmem
    rw [hpend] at hmem
    exact absurd hmem (List.not_mem_nil _)
  · intro s ci inp hmem
    rw [hpend] at hmem
    exact absurd hmem (List.not_mem_nil _)
  · rw [hpend]; simp

/-- The invariant ignores the document text. -/
theorem inv_set_text {st : AppState} (h : Inv st) (t : Str) :
    Inv { st with text := t } :=
  ⟨h.toneGate, h.genGrammarPending, h.genTonePending, h.noResug, h.pendingLen⟩

/-- `advanceToNextSuggestion` on a state with an empty grammar list only
clears the review index. -/
theorem advance_of_grammar_nil {st : AppState}
    (hg : st.grammarSuggestions = []) :
    advanceToNextSuggestion st = { st with currentSuggestionIndex := none } := by
  unfold advanceToNextSuggestion
  cases hi : st.currentSuggestionIndex <;> simp [hg]

/-- Advancing preserves the invariant when the tone list is empty and no
request is in flight. -/
theorem inv_advance {st : AppState} (htone : st.toneSuggestions = [])
    (hpend : st.pending = []) : Inv (advanceToNextSuggestion st) := by
  unfold advanceToNextSuggestion generateSuggestionsStart
  dsimp only
  split
  · rename_i hcond
    refine ⟨?_, ?_, ?_, ?_, ?_⟩
    · intro hne
      exact (hne htone).elim
    · intro inp hmem
      simp [hpend] at hmem
    · intro inp hmem
      simp [hpend] at hmem
      exact ⟨rfl, hcond.1, rfl⟩
    · intro s ci inp hmem
      simp [hpend] at hmem
    · simp [hpend]
  · exact inv_of_nil htone hpend

/-- One resuggest-free event preserves the invariant. -/
theorem step_preserves_inv {st st' : AppState} {e : Ev} (h : Inv st)
    (hres : e.isResuggestEv = false) (hstep : step st e = some st') :
    Inv st' := by
  cases e with
  | generateClick =>
    simp only [step] at hstep
    split at hstep
    · exact Option.noConfusion hstep
    · rename_i hguard
      have hload : st.isLoading = false := by
        rcases not_or.mp hguard with ⟨-, h2⟩
        simpa using h2
      have hpend := pending_nil_of_not_loading h hload
      injection hstep with hstep
      subst hstep
      unfold handleGenerateSuggestions
      rw [if_neg hguard]
      unfold generateSuggestionsStart resetSuggestions
      refine ⟨?_, ?_, ?_, ?_, ?_⟩
      · intro hne
        exact (hne rfl).elim
      · intro inp hmem
        exact ⟨rfl, rfl, rfl, rfl⟩
      · intro inp hmem
        simp [hpend] at hmem
      · intro s ci inp hmem
        simp [hpend] at hmem
      · simp [hpend]
  | genResolveOk j result =>
    simp only [step] at hstep
    split at hstep
    · rename_i sType input hget
      obtain ⟨hpend, hj⟩ := pending_singleton h hget
      injection hstep with hstep
      subst hstep
      subst hj
      have herase : (removePending st 0).pending = [] := by
        simp [removePending, hpend]
      cases sType with
      | grammar =>
        have hmem : PendingReq.gen SugKind.grammar input ∈ st.pending := by
          rw [hpend]; exact List.mem_cons_self _ _
        obtain ⟨htone, hgram, hidx, -⟩ := h.genGrammarPending input hmem
        unfold generateSuggestionsResolve
        rw [if_neg (by simp)]
        dsimp only
        split
        · -- non-empty grammar result: review starts, tone list still empty
          refine ⟨?_, ?_, ?_, ?_, ?_⟩
          · intro hne
            simp [removePending] at hne
            exact (hne htone).elim
          · intro inp hmem'
            simp [removePending, hpend] at hmem'
          · intro inp hmem'
            simp [removePending, hpend] at hmem'
          · intro s ci inp hmem'
            simp [removePending, hpend] at hmem'
          · simp [removePending, hpend]
        · -- empty grammar result: the nested tone fetch is dispatched
          rename_i hlen
          have hresnil : result = [] := by
            by_contra hc
            exact hlen (by simpa [List.length_pos] using hc)
          refine ⟨?_, ?_, ?_, ?_, ?_⟩
          · intro hne
            simp [removePending] at hne
            exact (hne htone).elim
          · intro inp hmem'
            simp [removePending, hpend] at hmem'
          · intro inp hmem'
            simp [removePending, hpend] at hmem'
            exact ⟨hresnil, by simp [removePending, hidx], rfl⟩
          · intro s ci inp hmem'
            simp [removePending, hpend] at hmem'
          · simp [removePending, hpend]
      | tone =>
        have hmem : PendingReq.gen SugKind.tone input ∈ st.pending := by
          rw [hpend]; exact List.mem_cons_self _ _
        obtain ⟨hgram, hidx, -⟩ := h.genTonePending input hmem
        unfold generateSuggestionsResolve
        rw [if_neg (by simp)]
        dsimp only
        refine ⟨?_, ?_, ?_, ?_, ?_⟩
        · intro hne
          simp [removePending, hgram]
        · intro inp hmem'
          simp [removePending, hpend] at hmem'
        · intro inp hmem'
          simp [removePending, hpend] at hmem'
        · intro s ci inp hmem'
          simp [removePending, hpend] at hmem'
        · simp [removePending, hpend]
    · exact Option.noConfusion hstep
  | genResolveErr j =>
    simp only [step] at hstep
    split at hstep
    · rename_i sType input hget
      obtain ⟨hpend, hj⟩ := pending_singleton h hget
      injection hstep with hstep
      subst hstep
      subst hj
      unfold generateSuggestionsFail
      refine ⟨?_, ?_, ?_, ?_, ?_⟩
      · intro hne
        simp [removePending] at hne ⊢
        exact h.toneGate hne
      · intro inp hmem'
        simp [removePending, hpend] at hmem'
      · intro inp hmem'
        simp [removePending, hpend] at hmem'
      · intro s ci inp hmem'
        simp [removePending, hpend] at hmem'
      · simp [removePending, hpend]
    · exact Option.noConfusion hstep
  | edit newText =>
    simp only [step] at hstep
    injection hstep with hstep
    subst hstep
    unfold handleTextChange resetSuggestions
    refine ⟨?_, ?_, ?_, ?_, ?_⟩
    · intro hne
      exact (hne rfl).elim
    · intro inp hmem
      exact ⟨rfl, rfl, rfl, (h.genGrammarPending inp hmem).2.2.2⟩
    · intro inp hmem
      exact ⟨rfl, rfl, (h.genTonePending inp hmem).2.2⟩
    · exact h.noResug
    · exact h.pendingLen
  | setTone t =>
    simp only [step] at hstep
    injection hstep with hstep
    subst hstep
    unfold handleToneChange resetSuggestions
    refine ⟨?_, ?_, ?_, ?_, ?_⟩
    · intro hne
      exact (hne rfl).elim
    · intro inp hmem
      exact ⟨rfl, rfl, rfl, (h.genGrammarPending inp hmem).2.2.2⟩
    · intro inp hmem
      exact ⟨rfl, rfl, (h.genTonePending inp hmem).2.2⟩
    · exact h.noResug
    · exact h.pendingLen
  | setStructure x =>
    simp only [step] at hstep
    injection hstep with hstep
    subst hstep
    unfold handleTextStructureChange resetSuggestions
    refine ⟨?_, ?_, ?_, ?_, ?_⟩
    · intro hne
      exact (hne rfl).elim
    · intro inp hmem
      exact ⟨rfl, rfl, rfl, (h.genGrammarPending inp hmem).2.2.2⟩
    · intro inp hmem
      exact ⟨rfl, rfl, (h.genTonePending inp hmem).2.2⟩
    · exact h.noResug
    · exact h.pendingLen
  | setRhyme b =>
    simp only [step] at hstep
    injection hstep with hstep
    subst hstep
    unfold handleRhymeChange resetSuggestions
    refine ⟨?_, ?_, ?_, ?_, ?_⟩
    · intro hne
      exact (hne rfl).elim
    · intro inp hmem
      exact ⟨rfl, rfl, rfl, (h.genGrammarPending inp hmem).2.2.2⟩
    · intro inp hmem
      exact ⟨rfl, rfl, (h.genTonePending inp hmem).2.2⟩
    · exact h.noResug
    · exact h.pendingLen
  | acceptActive =>
    simp only [step] at hstep
    split at hstep
    · rename_i s hactive
      injection hstep with hstep
      subst hstep
      unfold activeGrammarSuggestion at hactive
      split at hactive
      · rename_i i hidx
        have hpend := pending_nil_of_idx h hidx
        have hgramne : st.grammarSuggestions ≠ [] := by
          intro hg
          rw [hg] at hactive
          simp at hactive
        have htone : st.toneSuggestions = [] := by
          by_contra hc
          exact hgramne (h.toneGate hc)
        unfold handleAccept
        cases hty : s.type with
        | grammar =>
          unfold applyCorrection
          exact inv_set_text (inv_advance htone hpend) _
        | tone =>
          refine ⟨?_, ?_, ?_, ?_, ?_⟩
          · intro hne
            simp [htone] at hne
          · intro inp hmem'
            simp [hpend] at hmem'
          · intro inp hmem'
            simp [hpend] at hmem'
          · intro s' ci inp hmem'
            simp [hpend] at hmem'
          · simp [hpend]
      · exact Option.noConfusion hactive
    · exact Option.noConfusion hstep
  | dismissActive =>
    simp only [step] at hstep
    split at hstep
    · rename_i s hactive
      injection hstep with hstep
      subst hstep
      unfold activeGrammarSuggestion at hactive
      split at hactive
      · rename_i i hidx
        have hpend := pending_nil_of_idx h hidx
        have hgramne : st.grammarSuggestions ≠ [] := by
          intro hg
          rw [hg] at hactive
          simp at hactive
        have htone : st.toneSuggestions = [] := by
          by_contra hc
          exact hgramne (h.toneGate hc)
        unfold handleDismiss
        cases hty : s.type with
        | grammar => exact inv_advance htone hpend
        | tone =>
          refine ⟨?_, ?_, ?_, ?_, ?_⟩
          · intro hne
            simp [htone] at hne
          · intro inp hmem'
            simp [hpend] at hmem'
          · intro inp hmem'
            simp [hpend] at hmem'
          · intro s' ci inp hmem'
            simp [hpend] at hmem'
          · simp [hpend]
      · exact Option.noConfusion hactive
    · exact Option.noConfusion hstep
  | resuggestActive => simp [Ev.isResuggestEv] at hres
  | acceptTone s =>
    simp only [step] at hstep
    split at hstep
    · rename_i hmem
      injection hstep with hstep
      subst hstep
      have htonene : st.toneSuggestions ≠ [] := by
        intro ht
        rw [ht] at hmem
        exact absurd hmem (List.not_mem_nil _)
      have hgram := h.toneGate htonene
      unfold handleAccept
      cases hty : s.type with
      | grammar =>
        unfold applyCorrection
        rw [advance_of_grammar_nil hgram]
        refine ⟨?_, ?_, ?_, ?_, ?_⟩
        · intro hne
          exact hgram
        · intro inp hmem'
          have := (h.genGrammarPending inp hmem').1
          rw [this] at hmem
          exact absurd hmem (List.not_mem_nil _)
        · intro inp hmem'
          exact ⟨hgram, rfl, (h.genTonePending inp hmem').2.2⟩
        · exact h.noResug
        · exact h.pendingLen
      | tone =>
        refine ⟨?_, ?_, ?_, ?_, ?_⟩
        · intro hne
          exact hgram
        · intro inp hmem'
          have := (h.genGrammarPending inp hmem').1
          rw [this] at hmem
          exact absurd hmem (List.not_mem_nil _)
        · intro inp hmem'
          exact h.genTonePending inp hmem'
        · exact h.noResug
        · exact h.pendingLen
    · exact Option.noConfusion hstep
  | dismissTone s =>
    simp only [step] at hstep
    split at hstep
    · rename_i hmem
      injection hstep with hstep
      subst hstep
      have htonene : st.toneSuggestions ≠ [] := by
        intro ht
        rw [ht] at hmem
        exact absurd hmem (List.not_mem_nil _)
      have hgram := h.toneGate htonene
      unfold handleDismiss
      cases hty : s.type with
      | grammar =>
        rw [advance_of_grammar_nil hgram]
        refine ⟨?_, ?_, ?_, ?_, ?_⟩
        · intro hne
          exact hgram
        · intro inp hmem'
          have := (h.genGrammarPending inp hmem').1
          rw [this] at hmem
          exact absurd hmem (List.not_mem_nil _)
        · intro inp hmem'
          exact ⟨hgram, rfl, (h.genTonePending inp hmem').2.2⟩
        · exact h.noResug
        · exact h.pendingLen
      | tone =>
        refine ⟨?_, ?_, ?_, ?_, ?_⟩
        · intro hne
          exact hgram
        · intro inp hmem'
          have := (h.genGrammarPending inp hmem').1
          rw [this] at hmem
          exact absurd hmem (List.not_mem_nil _)
        · intro inp hmem'
          exact h.genTonePending inp hmem'
        · exact h.noResug
        · exact h.pendingLen
    · exact Option.noConfusion hstep
  | resuggestTone s => simp [Ev.isResuggestEv] at hres
  | resugResolveOk j result => simp [Ev.isResuggestEv] at hres
  | resugResolveErr j => simp [Ev.isResuggestEv] at hres
  | toggleExcluded k p =>
    simp only [step] at hstep
    injection hstep with hstep
    subst hstep
    exact ⟨h.toneGate, h.genGrammarPending, h.genTonePending, h.noResug,
      h.pendingLen⟩

theorem run_preserves_inv :
    ∀ (evs : List Ev) (st st' : AppState), Inv st →
      (∀ e ∈ evs, e.isResuggestEv = false) → run st evs = some st' →
      Inv st' := by
  intro evs
  induction evs with
  | nil =>
    intro st st' h _ hrun
    simp [run] at hrun
    subst hrun
    exact h
  | cons e es ih =>
    intro st st' h hfree hrun
    simp only [run] at hrun
    cases hs : step st e with
    | none => rw [hs] at hrun; exact Option.noConfusion hrun
    | some st1 =>
      rw [hs] at hrun
      exact ih st1 st'
        (step_preserves_inv h (hfree e (List.mem_cons_self e es)) hs)
        (fun e' he' => hfree e' (List.mem_cons_of_mem e he')) hrun

theorem inv_initState : Inv initState := by
  refine inv_of_nil rfl rfl

/-- C3 (amended): in every session state reachable from the initial state by
a resuggest-free event trace, `toneSuggestions` is non-empty only when
`grammarSuggestions` is empty, and a tone fetch is only ever in flight while
the grammar list is empty; moreover the earlier revision's gradual merge
(`fetchAndSetGradualSuggestions`) establishes the same gate for every
response.  (With resuggest events the invariant fails,
see `C3_counterexample`.) -/
theorem tone_gates_grammar_invariant :
    (∀ (evs : List Ev) (st : AppState),
      (∀ e ∈ evs, e.isResuggestEv = false) →
      run initState evs = some st →
      (st.toneSuggestions ≠ [] → st.grammarSuggestions = []) ∧
      (∀ inp, PendingReq.gen SugKind.tone inp ∈ st.pending →
        st.grammarSuggestions = [])) ∧
    (∀ (fetchText : Str) (result : List Suggestion),
      (fetchAndSetGradualSuggestions fetchText result).2 ≠ [] →
      (fetchAndSetGradualSuggestions fetchText result).1 = []) := by
  constructor
  · intro evs st hfree hrun
    have hinv := run_preserves_inv evs initState st inv_initState hfree hrun
    exact ⟨hinv.toneGate, fun inp hmem => (hinv.genTonePending inp hmem).1⟩
  · intro fetchText result
    unfold fetchAndSetGradualSuggestions
    split
    · intro hne
      exact (hne rfl).elim
    · dsimp only
      split
      · intro hne
        exact (hne rfl).elim
      · rename_i hlen
        intro _
        by_contra hc
        exact hlen (by simpa [List.length_pos] using hc)

/-- C3, witness: the invariant instantiated on the concrete resuggest-free
trace edit → generate → grammar response → full review (one dismiss) → tone
response. -/
theorem C3_witness :
    (∀ e ∈ ([Ev.edit ['a'], Ev.generateClick, Ev.genResolveOk 0 [sGram],
        Ev.dismissActive, Ev.genResolveOk 0 [sTone]] : List Ev),
      e.isResuggestEv = false) ∧
    ∃ st : AppState,
      run initState [Ev.edit ['a'], Ev.generateClick,
        Ev.genResolveOk 0 [sGram], Ev.dismissActive,
        Ev.genResolveOk 0 [sTone]] = some st ∧
      (st.toneSuggestions ≠ [] → st.grammarSuggestions = []) := by
  refine ⟨by decide, ?_⟩
  have hrun : (run initState [Ev.edit ['a'], Ev.generateClick,
      Ev.genResolveOk 0 [sGram], Ev.dismissActive,
      Ev.genResolveOk 0 [sTone]]).isSome = true := by decide
  obtain ⟨st, hst⟩ := Option.isSome_iff_exists.mp hrun
  exact ⟨st, hst,
    (tone_gates_grammar_invariant.1 _ st (by decide) hst).1⟩

/-! ## C4 — sequential grammar review -/

/-- An accept (`true`) or dismiss (`false`) of the active grammar
suggestion. -/
def reviewEv (b : Bool) : Ev :=
  if b then Ev.acceptActive else Ev.dismissActive

/-- Advancing from a non-final review index only increments it. -/
theorem advance_mid {st : AppState} {k : Nat}
    (hidx : st.currentSuggestionIndex = some k)
    (hk : k + 1 < st.grammarSuggestions.length) :
    advanceToNextSuggestion st =
      { st with currentSuggestionIndex := some (k + 1) } := by
  have h1 : k < st.grammarSuggestions.length - 1 := by omega
  simp [advanceToNextSuggestion, hidx, h1]

/-- Advancing from the final review index clears the index and the grammar
list and dispatches the tone fetch. -/
theorem advance_last {st : AppState} {k : Nat}
    (hidx : st.currentSuggestionIndex = some k)
    (hk : k + 1 = st.grammarSuggestions.length) :
    advanceToNextSuggestion st =
      generateSuggestionsStart
        { st with
          currentSuggestionIndex := none
          grammarSuggestions := []
          notices := st.notices ++ [Notice.grammarDoneFetchingTone] }
        SugKind.tone := by
  have hlen : st.grammarSuggestions.length = k + 1 := hk.symm
  simp [advanceToNextSuggestion, hidx, hlen]

theorem run_cons {st st1 : AppState} {e : Ev} {es : List Ev}
    (h : step st e = some st1) : run st (e :: es) = run st1 es := by
  simp [run, h]

theorem review_run_aux (gs : List Suggestion)
    (hty : ∀ s ∈ gs, s.type = SugKind.grammar) :
    ∀ (w : List Bool) (st : AppState) (k : Nat),
      st.grammarSuggestions = gs →
      st.currentSuggestionIndex = some k →
      k < gs.length →
      k + w.length ≤ gs.length →
      ∃ st', run st (w.map reviewEv) = some st' ∧
        ((k + w.length < gs.length ∧
          st'.currentSuggestionIndex = some (k + w.length) ∧
          st'.grammarSuggestions = gs ∧
          st'.pending = st.pending) ∨
         (k + w.length = gs.length ∧
          st'.currentSuggestionIndex = none ∧
          st'.grammarSuggestions = [] ∧
          ∃ inp, st'.pending = st.pending ++ [PendingReq.gen SugKind.tone inp] ∧
            inp.suggestionType = ReqSugType.tone)) := by
  intro w
  induction w with
  | nil =>
    intro st k hgram hidx hk hbound
    refine ⟨st, rfl, Or.inl ⟨by simpa using hk, ?_, hgram, rfl⟩⟩
    simpa using hidx
  | cons b rest ih =>
    intro st k hgram hidx hk hbound
    have hkmem : gs.get ⟨k, hk⟩ ∈ gs := List.get_mem gs k hk
    have hsty := hty _ hkmem
    have hactive : activeGrammarSuggestion st = some (gs.get ⟨k, hk⟩) := by
      unfold activeGrammarSuggestion
      rw [hidx, hgram]
      exact List.get?_eq_get hk
    have hblen : (b :: rest).length = rest.length + 1 := List.length_cons b rest
    rcases Nat.lt_or_ge (k + 1) gs.length with hmid | hlast
    · -- not the last suggestion: the index advances by one
      have hadv := advance_mid hidx (by rw [hgram]; exact hmid)
      have harith : k + (b :: rest).length = k + 1 + rest.length := by
        rw [hblen]; omega
      cases b
      · have hst1 : handleDismiss st (gs.get ⟨k, hk⟩) =
            { st with currentSuggestionIndex := some (k + 1) } := by
          unfold handleDismiss
          rw [hsty, hadv]
        have hstep1 : step st (reviewEv false) =
            some { st with currentSuggestionIndex := some (k + 1) } := by
          show step st Ev.dismissActive = _
          simp only [step, hactive, hst1]
        obtain ⟨st', hrun', hconc⟩ :=
          ih { st with currentSuggestionIndex := some (k + 1) } (k + 1)
            hgram rfl hmid (by rw [hblen] at hbound; omega)
        refine ⟨st', ?_, ?_⟩
        · rw [List.map_cons, run_cons hstep1]
          exact hrun'
        · rw [harith]
          exact hconc
      · have hst1 : handleAccept st (gs.get ⟨k, hk⟩) =
            { st with
              currentSuggestionIndex := some (k + 1)
              text := jsReplace st.text (gs.get ⟨k, hk⟩).originalText
                (gs.get ⟨k, hk⟩).correctedText } := by
          unfold handleAccept
          rw [hsty]
          unfold applyCorrection
          rw [hadv]
        have hstep1 : step st (reviewEv true) =
            some { st with
              currentSuggestionIndex := some (k + 1)
              text := jsReplace st.text (gs.get ⟨k, hk⟩).originalText
                (gs.get ⟨k, hk⟩).correctedText } := by
          show step st Ev.acceptActive = _
          simp only [step, hactive, hst1]
        obtain ⟨st', hrun', hconc⟩ :=
          ih { st with
              currentSuggestionIndex := some (k + 1)
              text := jsReplace st.text (gs.get ⟨k, hk⟩).originalText
                (gs.get ⟨k, hk⟩).correctedText } (k + 1)
            hgram rfl hmid (by rw [hblen] at hbound; omega)
        refine ⟨st', ?_, ?_⟩
        · rw [List.map_cons, run_cons hstep1]
          exact hrun'
        · rw [harith]
          exact hconc
    · -- the last suggestion: grammar list cleared, tone fetch dispatched
      have hlasteq : k + 1 = gs.length := by omega
      have hrest : rest = [] := by
        rw [hblen] at hbound
        have : rest.length = 0 := by omega
        exact List.length_eq_zero.mp this
      subst hrest
      have hadv := advance_last hidx (by rw [hgram]; exact hlasteq)
      have hlen' : k + ([b] : List Bool).length = gs.length := by
        simpa using hlasteq
      cases b
      · have hst1 : handleDismiss st (gs.get ⟨k, hk⟩) =
            generateSuggestionsStart
              { st with
                currentSuggestionIndex := none
                grammarSuggestions := []
                notices := st.notices ++ [Notice.grammarDoneFetchingTone] }
              SugKind.tone := by
          unfold handleDismiss
          rw [hsty, hadv]
        have hstep1 : step st (reviewEv false) =
            some (generateSuggestionsStart
              { st with
                currentSuggestionIndex := none
                grammarSuggestions := []
                notices := st.notices ++ [Notice.grammarDoneFetchingTone] }
              SugKind.tone) := by
          show step st Ev.dismissActive = _
          simp only [step, hactive, hst1]
        have hrun1 : run st ([false].map reviewEv) =
            some (generateSuggestionsStart
              { st with
                currentSuggestionIndex := none
                grammarSuggestions := []
                notices := st.notices ++ [Notice.grammarDoneFetchingTone] }
              SugKind.tone) := by
          rw [List.map_cons, List.map_nil, run_cons hstep1]
          rfl
        exact ⟨_, hrun1, Or.inr ⟨hlen', rfl, rfl, _, rfl, rfl⟩⟩
      · have hst1 : handleAccept st (gs.get ⟨k, hk⟩) =
            { generateSuggestionsStart
              { st with
                currentSuggestionIndex := none
                grammarSuggestions := []
                notices := st.notices ++ [Notice.grammarDoneFetchingTone] }
              SugKind.tone with
              text := jsReplace st.text (gs.get ⟨k, hk⟩).originalText
                (gs.get ⟨k, hk⟩).correctedText } := by
          unfold handleAccept
          rw [hsty]
          unfold applyCorrection
          rw [hadv]
        have hstep1 : step st (reviewEv true) =
            some ({ generateSuggestionsStart
              { st with
                currentSuggestionIndex := none
                grammarSuggestions := []
                notices := st.notices ++ [Notice.grammarDoneFetchingTone] }
              SugKind.tone with
              text := jsReplace st.text (gs.get ⟨k, hk⟩).originalText
                (gs.get ⟨k, hk⟩).correctedText }) := by
          show step st Ev.acceptActive = _
          simp only [step, hactive, hst1]
        have hrun1 : run st ([true].map reviewEv) =
            some ({ generateSuggestionsStart
              { st with
                currentSuggestionIndex := none
                grammarSuggestions := []
                notices := st.notices ++ [Notice.grammarDoneFetchingTone] }
              SugKind.tone with
              text := jsReplace st.text (gs.get ⟨k, hk⟩).originalText
                (gs.get ⟨k, hk⟩).correctedText }) := by
          rw [List.map_cons, List.map_nil, run_cons hstep1]
          rfl
        exact ⟨_, hrun1, Or.inr ⟨hlen', rfl, rfl, _, rfl, rfl⟩⟩

/-- C4: a sequential grammar review over `N > 0` grammar suggestions starting
at index 0: after `k < N` accepts/dismisses (in any mix) the review index is
exactly `k` — each step advances it by exactly one, so indices `0 .. N-1`
are visited exactly once in increasing order — the grammar list is untouched
until, on the accept or dismiss of index `N-1`, it is cleared and a tone
fetch is dispatched; a resuggest leaves index and list unchanged. -/
theorem grammar_review_sequential (st : AppState) (N : Nat)
    (hN : 0 < N)
    (hlen : st.grammarSuggestions.length = N)
    (hty : ∀ s ∈ st.grammarSuggestions, s.type = SugKind.grammar)
    (hidx : st.currentSuggestionIndex = some 0) :
    (∀ w : List Bool, w.length ≤ N →
      ∃ st', run st (w.map reviewEv) = some st' ∧
        (w.length < N →
          st'.currentSuggestionIndex = some w.length ∧
          st'.grammarSuggestions = st.grammarSuggestions) ∧
        (w.length = N →
          st'.currentSuggestionIndex = none ∧
          st'.grammarSuggestions = [] ∧
          ∃ inp,
            st'.pending = st.pending ++ [PendingReq.gen SugKind.tone inp] ∧
            inp.suggestionType = ReqSugType.tone)) ∧
    (∀ s, (handleResuggestStart st s).currentSuggestionIndex =
        st.currentSuggestionIndex ∧
      (handleResuggestStart st s).grammarSuggestions =
        st.grammarSuggestions) := by
  constructor
  · intro w hw
    obtain ⟨st', hrun', hconc⟩ := review_run_aux st.grammarSuggestions hty w st 0
      rfl hidx (by omega) (by omega)
    simp only [Nat.zero_add] at hconc
    refine ⟨st', hrun', ?_, ?_⟩
    · intro hlt
      rcases hconc with ⟨-, h1, h2, -⟩ | ⟨heq, -⟩
      · simpa using ⟨h1, h2⟩
      · omega
    · intro heq
      rcases hconc with ⟨hlt, -⟩ | ⟨-, h1, h2, inp, h3, h4⟩
      · omega
      · exact ⟨h1, h2, inp, h3, h4⟩
  · intro s
    exact ⟨rfl, rfl⟩

/-- A second concrete grammar suggestion. -/
def sGramB : Suggestion :=
  { originalText := ['x']
    correctedText := ['y']
    explanation := []
    type := SugKind.grammar }

/-- A session in the middle of reviewing two grammar suggestions. -/
def reviewState : AppState :=
  { initState with
    text := ['a', 'x']
    grammarSuggestions := [sGram, sGramB]
    currentSuggestionIndex := some 0 }

/-- C4, witness: accepting then dismissing a two-suggestion review clears the
index and the grammar list. -/
theorem C4_witness :
    (0 < 2 ∧ reviewState.grammarSuggestions.length = 2 ∧
      (∀ s ∈ reviewState.grammarSuggestions, s.type = SugKind.grammar) ∧
      reviewState.currentSuggestionIndex = some 0) ∧
    ∃ st', run reviewState ([true, false].map reviewEv) = some st' ∧
      st'.currentSuggestionIndex = none ∧ st'.grammarSuggestions = [] := by
  refine ⟨⟨by decide, by decide, by decide, rfl⟩, ?_⟩
  obtain ⟨st', hrun', -, hfull⟩ :=
    (grammar_review_sequential reviewState 2 (by decide) (by decide)
      (by decide) rfl).1 [true, false] (by decide)
  obtain ⟨h1, h2, -⟩ := hfull rfl
  exact ⟨st', hrun', h1, h2⟩

/-! ## C5 — no revalidation of the lists after a patch

The claim: after every successful patch, remaining suggestions whose
`originalText` no longer occurs in the new document are dropped.  `handleAccept`
does no such revalidation: accepting a tone suggestion removes exactly the
suggestions sharing its `originalText`, and accepting a grammar suggestion
leaves both lists untouched (apart from the end-of-review clear). -/

/-- A tone suggestion whose acceptance invalidates `c5T2`. -/
def c5T1 : Suggestion :=
  { originalText := ['a']
    correctedText := ['x']
    explanation := []
    type := SugKind.tone }

/-- A tone suggestion targeting `"ab"`. -/
def c5T2 : Suggestion :=
  { originalText := ['a', 'b']
    correctedText := ['y']
    explanation := []
    type := SugKind.tone }

/-- A session displaying both tone suggestions over the document `"ab"`. -/
def c5State : AppState :=
  { initState with
    text := ['a', 'b']
    toneSuggestions := [c5T1, c5T2] }

/-- `c5State` after accepting `c5T1`. -/
def c5Final : AppState :=
  { c5State with
    text := ['x', 'b']
    toneSuggestions := [c5T2] }

/-- C5, counterexample: accepting `c5T1` patches the document to `"xb"`, after
which `c5T2.originalText = "ab"` no longer occurs — yet `c5T2` stays in
`toneSuggestions`. -/
theorem C5_counterexample :
    step c5State (Ev.acceptTone c5T1) = some c5Final ∧
    c5Final.text = ['x', 'b'] ∧
    c5T2 ∈ c5Final.toneSuggestions ∧
    ¬ isSubstring c5T2.originalText c5Final.text := by
  decide

/-- The advance never touches the tone list. -/
theorem advance_toneSuggestions (st : AppState) :
    (advanceToNextSuggestion st).toneSuggestions = st.toneSuggestions := by
  unfold advanceToNextSuggestion generateSuggestionsStart
  dsimp only
  split <;> rfl

/-- The advance either keeps the grammar list or clears it. -/
theorem advance_grammarSuggestions (st : AppState) :
    (advanceToNextSuggestion st).grammarSuggestions = st.grammarSuggestions ∨
      (advanceToNextSuggestion st).grammarSuggestions = [] := by
  unfold advanceToNextSuggestion generateSuggestionsStart
  dsimp only
  split
  · right; rfl
  · left; rfl

/-- C5 (amended): `handleAccept` performs no revalidation.  Accepting a tone
suggestion removes exactly the suggestions sharing its `originalText` from
the tone list — every other tone suggestion survives whether or not its
`originalText` still occurs in the patched document — and leaves the grammar
list unchanged; accepting a grammar suggestion leaves the tone list unchanged
and the grammar list unchanged or (end of review) cleared. -/
theorem handleAccept_no_revalidation (st : AppState) (s : Suggestion) :
    (s.type = SugKind.tone →
      (handleAccept st s).toneSuggestions =
        st.toneSuggestions.filter (fun x => x.originalText != s.originalText) ∧
      (handleAccept st s).grammarSuggestions = st.grammarSuggestions ∧
      ∀ t ∈ st.toneSuggestions, t.originalText ≠ s.originalText →
        t ∈ (handleAccept st s).toneSuggestions) ∧
    (s.type = SugKind.grammar →
      (handleAccept st s).toneSuggestions = st.toneSuggestions ∧
      ((handleAccept st s).grammarSuggestions = st.grammarSuggestions ∨
        (handleAccept st s).grammarSuggestions = [])) := by
  constructor
  · intro hty
    have hred : handleAccept st s =
        { st with
          text := jsReplace st.text s.originalText s.correctedText
          toneSuggestions := st.toneSuggestions.filter
            (fun x => x.originalText != s.originalText) } := by
      unfold handleAccept
      rw [hty]
    rw [hred]
    refine ⟨rfl, rfl, ?_⟩
    intro t hmem hne
    exact List.mem_filter.mpr ⟨hmem, bne_iff_ne.mpr hne⟩
  · intro hty
    have hred : handleAccept st s =
        { advanceToNextSuggestion st with
          text := jsReplace st.text s.originalText s.correctedText } := by
      unfold handleAccept
      rw [hty]
      rfl
    rw [hred]
    exact ⟨advance_toneSuggestions st, advance_grammarSuggestions st⟩

/-- C5, witness: the amended behaviour at `c5State`. -/
theorem C5_witness :
    c5T1.type = SugKind.tone ∧
    (handleAccept c5State c5T1).toneSuggestions =
      c5State.toneSuggestions.filter
        (fun x => x.originalText != c5T1.originalText) := by
  exact ⟨rfl, ((handleAccept_no_revalidation c5State c5T1).1 rfl).1⟩

/-! ## C6 — resuggest requests, in-place replacement, exclusion set

The claim matches the *earlier* revision's `handleResuggest`, which records
the returned `correctedText` in `excludedPhrasesMap`.  The current revision's
`handleResuggest` builds the request from the recorded exclusions and
replaces the suggestion in place, but never writes to `excludedPhrasesMap`,
so a later resuggest for the same key does not exclude the previously
returned alternative. -/

/-- The displayed tone suggestion for key `"k"`. -/
def c6T0 : Suggestion :=
  { originalText := ['k']
    correctedText := ['s']
    explanation := []
    type := SugKind.tone }

/-- The oracle's resuggest answer `X` for key `"k"`. -/
def c6T1 : Suggestion :=
  { originalText := ['k']
    correctedText := ['X']
    explanation := []
    type := SugKind.tone }

/-- A session with one tone suggestion for `"k"` and the recorded exclusion
`"p"` for that key. -/
def c6State : AppState :=
  { initState with
    toneSuggestions := [c6T0]
    excludedPhrasesMap := [(['k'], [['p']])] }

/-- The request captured by a resuggest of `c6T0` in `c6State`. -/
def c6Input : SuggestionInput :=
  { text := ['k']
    tone := "Melancólico".data
    textStructure := TextStructure.poema
    rhyme := false
    suggestionType := ReqSugType.tone
    excludedPhrases := [['p']] }

/-- `c6State` after the resuggest round-trip returned `c6T1`. -/
def c6Final : AppState :=
  { c6State with toneSuggestions := [c6T1] }

/-- C6, counterexample: the resuggest round-trip replaces the suggestion in
place but leaves `excludedPhrasesMap` unchanged — the returned `"X"` is not
added to the exclusion set of `"k"`, and the next resuggest for that key
again sends only the old exclusions (so a conforming oracle may return `"X"`
again). -/
theorem C6_counterexample :
    run c6State [Ev.resuggestTone c6T0, Ev.resugResolveOk 0 [c6T1]] =
      some c6Final ∧
    c6Final.toneSuggestions = [c6T1] ∧
    c6Final.excludedPhrasesMap = c6State.excludedPhrasesMap ∧
    c6T1.correctedText ∉ lookupExcl c6Final.excludedPhrasesMap
      c6T0.originalText ∧
    step c6Final (Ev.resuggestTone c6T1) =
      some { c6Final with
        isLoading := true
        pending := [PendingReq.resug c6T1 none c6Input] } ∧
    c6T1.correctedText ∉ c6Input.excludedPhrases := by
  decide

/-- C6 (amended): the current revision's resuggest.  The dispatched request's
text is exactly the suggestion's `originalText` and its `excludedPhrases` are
exactly the exclusions recorded for that key (so they include every recorded
exclusion, but never the previously returned `correctedText`, which is not
added anywhere).  On a successful response the first returned suggestion
replaces the matching one in place — at the captured review index for a
grammar suggestion, by `originalText` in the tone list otherwise — and list
order, the active review index and the exclusion map are preserved.  On an
empty response nothing changes and the caller is notified. -/
theorem handleResuggest_spec :
    (∀ (st : AppState) (s : Suggestion),
      (handleResuggestStart st s).pending = st.pending ++
        [PendingReq.resug s st.currentSuggestionIndex {
          text := s.originalText
          tone := st.tone
          textStructure := st.textStructure
          rhyme := st.rhyme
          suggestionType :=
            match s.type with
            | SugKind.grammar => ReqSugType.grammar
            | SugKind.tone => ReqSugType.tone
          excludedPhrases := lookupExcl st.excludedPhrasesMap s.originalText }] ∧
      (handleResuggestStart st s).excludedPhrasesMap =
        st.excludedPhrasesMap) ∧
    (∀ (st : AppState) (s ns : Suggestion) (i : Nat) (rest : List Suggestion),
      s.type = SugKind.grammar → i < st.grammarSuggestions.length →
      (handleResuggestResolve st s (some i) (ns :: rest)).grammarSuggestions =
        st.grammarSuggestions.set i ns ∧
      (handleResuggestResolve st s (some i) (ns :: rest)).toneSuggestions =
        st.toneSuggestions ∧
      (handleResuggestResolve st s (some i) (ns :: rest)).currentSuggestionIndex =
        st.currentSuggestionIndex ∧
      (handleResuggestResolve st s (some i) (ns :: rest)).excludedPhrasesMap =
        st.excludedPhrasesMap) ∧
    (∀ (st : AppState) (s ns : Suggestion) (rest : List Suggestion),
      s.type = SugKind.tone →
      (handleResuggestResolve st s none (ns :: rest)).toneSuggestions =
        st.toneSuggestions.map
          (fun x => if x.originalText == s.originalText then ns else x) ∧
      (handleResuggestResolve st s none (ns :: rest)).grammarSuggestions =
        st.grammarSuggestions ∧
      (handleResuggestResolve st s none (ns :: rest)).currentSuggestionIndex =
        st.currentSuggestionIndex ∧
      (handleResuggestResolve st s none (ns :: rest)).excludedPhrasesMap =
        st.excludedPhrasesMap) ∧
    (∀ (st : AppState) (s : Suggestion) (ci : Option Nat),
      (handleResuggestResolve st s ci []).grammarSuggestions =
        st.grammarSuggestions ∧
      (handleResuggestResolve st s ci []).toneSuggestions =
        st.toneSuggestions ∧
      (handleResuggestResolve st s ci []).excludedPhrasesMap =
        st.excludedPhrasesMap ∧
      (handleResuggestResolve st s ci []).notices =
        st.notices ++ [Notice.resugNoAlternative]) := by
  refine ⟨?_, ?_, ?_, ?_⟩
  · intro st s
    exact ⟨rfl, rfl⟩
  · intro st s ns i rest hty hi
    unfold handleResuggestResolve jsArraySet
    rw [hty]
    simp only [List.head?_cons]
    rw [if_pos hi]
    simp
  · intro st s ns rest hty
    unfold handleResuggestResolve
    rw [hty]
    simp only [List.head?_cons]
    simp
  · intro st s ci
    unfold handleResuggestResolve
    simp only [List.head?_nil]
    simp

/-- C6, witness: the amended resuggest behaviour at a concrete grammar
resolution. -/
theorem C6_witness :
    sGram.type = SugKind.grammar ∧ 0 < 1 ∧
    (handleResuggestResolve reviewState sGram (some 0)
      [sGram2]).grammarSuggestions = reviewState.grammarSuggestions.set 0
        sGram2 := by
  have h := (handleResuggest_spec.2.1 reviewState sGram sGram2 0 [] rfl
    (by decide)).1
  exact ⟨rfl, by decide, h⟩

/-! ## C8 — cursor-based active-suggestion lookup -/

/-- The suggestion's `originalText`, located at its first occurrence in the
document, spans an interval that contains the cursor offset, inclusively at
both ends. -/
def spansCursor (text : Str) (cp : Nat) (s : Suggestion) : Prop :=
  ∃ i, occursAt s.originalText text i ∧
    (∀ j < i, ¬ occursAt s.originalText text j) ∧
    i ≤ cp ∧ cp ≤ i + s.originalText.length

/-- The Boolean test of `checkActiveSuggestion` decides `spansCursor`. -/
theorem checkActive_pred_iff (text : Str) (cp : Nat) (s : Suggestion) :
    ((match jsIndexOf text s.originalText with
      | none => false
      | some startIndex =>
        decide (startIndex ≤ cp) &&
          decide (cp ≤ startIndex + s.originalText.length)) = true) ↔
      spansCursor text cp s := by
  cases hj : jsIndexOf text s.originalText with
  | none =>
    simp only [Bool.false_eq_true, false_iff]
    rintro ⟨i, h1, -, -⟩
    exact jsIndexOf_eq_none hj i h1
  | some startIndex =>
    obtain ⟨h1, h2⟩ := jsIndexOf_eq_some hj
    simp only [Bool.and_eq_true, decide_eq_true_eq]
    constructor
    · rintro ⟨hb1, hb2⟩
      exact ⟨startIndex, h1, h2, hb1, hb2⟩
    · rintro ⟨i, hi1, hi2, hb1, hb2⟩
      have : jsIndexOf text s.originalText = some i :=
        jsIndexOf_eq_some_iff.mpr ⟨hi1, hi2⟩
      rw [hj] at this
      injection this with this
      subst this
      exact ⟨hb1, hb2⟩

/-- C8: the cursor lookup returns the first suggestion in the list whose
first-occurrence span contains the cursor inclusively; suggestions whose
`originalText` does not occur are skipped, and when no span contains the
offset (or no cursor is available) the active suggestion is `none`. -/
theorem checkActiveSuggestion_spec (text : Str) (cp : Nat)
    (sugs : List Suggestion) :
    (∀ s, checkActiveSuggestion text (some cp) sugs = some s →
      spansCursor text cp s ∧
      ∃ pre post, sugs = pre ++ s :: post ∧
        ∀ t ∈ pre, ¬ spansCursor text cp t) ∧
    (checkActiveSuggestion text (some cp) sugs = none →
      ∀ s ∈ sugs, ¬ spansCursor text cp s) ∧
    checkActiveSuggestion text none sugs = none := by
  refine ⟨?_, ?_, rfl⟩
  · intro s hs
    simp only [checkActiveSuggestion] at hs
    split at hs
    · exact Option.noConfusion hs
    · obtain ⟨hpred, pre, post, heq, hpre⟩ := List.find?_eq_some.mp hs
      refine ⟨(checkActive_pred_iff text cp s).mp hpred, pre, post, heq, ?_⟩
      intro t ht
      have := hpre t ht
      simp only [Bool.not_eq_true'] at this
      intro hc
      rw [(checkActive_pred_iff text cp t).mpr hc] at this
      exact Bool.noConfusion this
  · intro hs s hmem
    simp only [checkActiveSuggestion] at hs
    split at hs
    · rename_i hlen
      rw [List.length_eq_zero.mp hlen] at hmem
      exact absurd hmem (List.not_mem_nil s)
    · intro hc
      have := List.find?_eq_none.mp hs s hmem
      exact this ((checkActive_pred_iff text cp s).mpr hc)

/-- C8, witness: in `"hi"` with the cursor at offset 1, the lookup finds the
suggestion for `"i"`. -/
theorem C8_witness :
    checkActiveSuggestion ['h', 'i'] (some 1)
      [{ originalText := ['i'], correctedText := ['j'], explanation := [],
         type := SugKind.grammar }] =
      some { originalText := ['i'], correctedText := ['j'], explanation := [],
             type := SugKind.grammar } ∧
    spansCursor ['h', 'i'] 1
      { originalText := ['i'], correctedText := ['j'], explanation := [],
        type := SugKind.grammar } := by
  have h1 : checkActiveSuggestion ['h', 'i'] (some 1)
      [{ originalText := ['i'], correctedText := ['j'], explanation := [],
         type := SugKind.grammar }] =
      some { originalText := ['i'], correctedText := ['j'], explanation := [],
             type := SugKind.grammar } := by decide
  exact ⟨h1, ((checkActiveSuggestion_spec ['h', 'i'] 1 _).1 _ h1).1⟩

/-! ## C9 — duplicate `originalText` values are not filtered

The claim: a merged response keeps only the first suggestion per
`originalText`.  The current revision's merge stores `result.suggestions`
verbatim (`setGrammarSuggestions(result.suggestions)` /
`setToneSuggestions(result.suggestions)`, no deduplication), so duplicates
are retained; uniqueness is only approximated at render time inside the
editor's highlight computation. -/

/-- C9, counterexample: a grammar response containing the same suggestion
twice is stored with both copies — two stored suggestions share one
`originalText`. -/
theorem C9_counterexample :
    (run startState [Ev.generateClick, Ev.genResolveOk 0 [sGram, sGram]]).map
      (fun st => st.grammarSuggestions) = some [sGram, sGram] ∧
    (([sGram, sGram] : List Suggestion).filter
      (fun x => x.originalText == sGram.originalText)).length = 2 := by
  decide

/-- C9 (amended): an oracle response is merged verbatim — the stored grammar
(resp. tone) list equals the response's suggestion list, so for every key
the stored list contains exactly as many suggestions with that
`originalText` as the response did; duplicates are not filtered. -/
theorem merge_stores_response_verbatim (st : AppState)
    (input : SuggestionInput) (result : List Suggestion) :
    (generateSuggestionsResolve st SugKind.grammar input
      result).grammarSuggestions = result ∧
    (generateSuggestionsResolve st SugKind.tone input
      result).toneSuggestions = result ∧
    ∀ k : Str,
      ((generateSuggestionsResolve st SugKind.grammar input
        result).grammarSuggestions.filter
          (fun x => x.originalText == k)).length =
        (result.filter (fun x => x.originalText == k)).length := by
  have hg : (generateSuggestionsResolve st SugKind.grammar input
      result).grammarSuggestions = result := by
    unfold generateSuggestionsResolve
    rw [if_neg (by simp)]
    dsimp only
    split <;> rfl
  have ht : (generateSuggestionsResolve st SugKind.tone input
      result).toneSuggestions = result := by
    unfold generateSuggestionsResolve
    rw [if_neg (by simp)]
  exact ⟨hg, ht, fun k => by rw [hg]⟩

/-! ## C10 — the per-word exclusion toggle -/

/-- The in-place update of an existing key is seen by `find?` for that key. -/
theorem find?_map_self :
    ∀ (m : ExclMap) (k : Str) (v : List Str),
      m.any (fun e => e.1 == k) = true →
      (m.map (fun e => if e.1 == k then (k, v) else e)).find?
        (fun e => e.1 == k) = some (k, v)
  | [], _, _, hany => by simp at hany
  | e :: rest, k, v, hany => by
    by_cases he : (e.1 == k) = true
    · rw [List.map_cons, if_pos he]
      exact List.find?_cons_of_pos
        (p := fun e : Str × List Str => e.1 == k) _ (by simp)
    · have hfalse : (e.1 == k) = false := by simpa using he
      rw [List.map_cons, if_neg he,
        List.find?_cons_of_neg (p := fun e : Str × List Str => e.1 == k) _ he]
      exact find?_map_self rest k v
        (by simpa [List.any_cons, hfalse] using hany)

/-- The in-place update of key `k` is invisible to `find?` for `k' ≠ k`. -/
theorem find?_map_other :
    ∀ (m : ExclMap) (k : Str) (v : List Str) (k' : Str),
      (k == k') = false →
      (m.map (fun e => if e.1 == k then (k, v) else e)).find?
        (fun e => e.1 == k') = m.find? (fun e => e.1 == k')
  | [], _, _, _, _ => rfl
  | e :: rest, k, v, k', hkk' => by
    by_cases he : (e.1 == k) = true
    · have he' : e.1 = k := by simpa using he
      have hek' : ¬ (e.1 == k') = true := by
        rw [he', hkk']
        exact Bool.false_ne_true
      rw [List.map_cons, if_pos he,
        List.find?_cons_of_neg (p := fun e : Str × List Str => e.1 == k') _
          (by simp [hkk']),
        List.find?_cons_of_neg (p := fun e : Str × List Str => e.1 == k') _
          hek']
      exact find?_map_other rest k v k' hkk'
    · rw [List.map_cons, if_neg he]
      by_cases he2 : (e.1 == k') = true
      · rw [List.find?_cons_of_pos
            (p := fun e : Str × List Str => e.1 == k') _ he2,
          List.find?_cons_of_pos
            (p := fun e : Str × List Str => e.1 == k') _ he2]
      · rw [List.find?_cons_of_neg
            (p := fun e : Str × List Str => e.1 == k') _ he2,
          List.find?_cons_of_neg
            (p := fun e : Str × List Str => e.1 == k') _ he2]
        exact find?_map_other rest k v k' hkk'

/-- Looking up the key just set yields the stored list. -/
theorem lookupExcl_setExcl_self (m : ExclMap) (k : Str) (v : List Str) :
    lookupExcl (setExcl m k v) k = v := by
  unfold setExcl
  split
  · rename_i hany
    unfold lookupExcl
    rw [find?_map_self m k v hany]
  · rename_i hany
    have hnone : m.find? (fun e => e.1 == k) = none := by
      rw [List.find?_eq_none]
      intro x hx hpx
      rw [Bool.not_eq_true] at hany
      have hall := List.any_eq_false.mp hany
      exact hall x hx hpx
    unfold lookupExcl
    rw [List.find?_append, hnone]
    simp

/-- Setting one key leaves the lookup of every other key unchanged. -/
theorem lookupExcl_setExcl_other (m : ExclMap) (k : Str) (v : List Str)
    (k' : Str) (hne : k' ≠ k) :
    lookupExcl (setExcl m k v) k' = lookupExcl m k' := by
  have hkk' : (k == k') = false := by
    rw [beq_eq_false_iff_ne]
    exact fun hc => hne hc.symm
  unfold setExcl
  split
  · unfold lookupExcl
    rw [find?_map_other m k v k' hkk']
  · unfold lookupExcl
    rw [List.find?_append]
    have h1 : ([(k, v)] : ExclMap).find? (fun e => e.1 == k') = none := by
      simp [hkk']
    rw [h1]
    cases m.find? (fun e => e.1 == k') <;> rfl

/-- C10: one application of `handleToggleExcludedPhrase` flips whether the
phrase is in the key's exclusion list, leaves every other key's list
unchanged, and two successive applications restore the key's set of excluded
phrases (membership is an involution). -/
theorem toggleExcludedPhrase_spec (m : ExclMap) (k p : Str) :
    (p ∈ lookupExcl (handleToggleExcludedPhrase m k p) k ↔
      p ∉ lookupExcl m k) ∧
    (∀ k', k' ≠ k →
      lookupExcl (handleToggleExcludedPhrase m k p) k' = lookupExcl m k') ∧
    (∀ q, q ∈ lookupExcl
        (handleToggleExcludedPhrase (handleToggleExcludedPhrase m k p) k p) k ↔
      q ∈ lookupExcl m k) := by
  refine ⟨?_, ?_, ?_⟩
  · unfold handleToggleExcludedPhrase
    rw [lookupExcl_setExcl_self]
    by_cases hp : p ∈ lookupExcl m k
    · rw [if_pos hp]
      simp [hp, List.mem_filter]
    · rw [if_neg hp]
      simp [hp]
  · intro k' hne
    unfold handleToggleExcludedPhrase
    exact lookupExcl_setExcl_other m k _ k' hne
  · intro q
    unfold handleToggleExcludedPhrase
    rw [lookupExcl_setExcl_self, lookupExcl_setExcl_self]
    by_cases hp : p ∈ lookupExcl m k
    · rw [if_pos hp]
      have hnotmem : p ∉ (lookupExcl m k).filter (fun x => x != p) := by
        intro hc
        have := (List.mem_filter.mp hc).2
        simp at this
      rw [if_neg hnotmem]
      by_cases hq : q = p
      · subst hq
        simp [hp]
      · simp [List.mem_filter, hq, bne_iff_ne]
    · rw [if_neg hp, if_pos (show p ∈ lookupExcl m k ++ [p] by simp)]
      constructor
      · intro hq
        rcases List.mem_filter.mp hq with ⟨hq1, -⟩
        rcases List.mem_append.mp hq1 with h | h
        · exact h
        · simp at h
          subst h
          have := (List.mem_filter.mp hq).2
          simp at this
      · intro hq
        refine List.mem_filter.mpr ⟨List.mem_append.mpr (Or.inl hq), ?_⟩
        rw [bne_iff_ne]
        intro hqp
        subst hqp
        exact hp hq

/-- C10, witness: toggling `"p"` for key `"k"` in the empty map adds it;
toggling again removes it. -/
theorem C10_witness :
    (['p'] ∈ lookupExcl (handleToggleExcludedPhrase [] ['k'] ['p']) ['k'] ↔
      ['p'] ∉ lookupExcl ([] : ExclMap) ['k']) ∧
    (['q'] ≠ ['k']) ∧
    lookupExcl (handleToggleExcludedPhrase [] ['k'] ['p']) ['q'] =
      lookupExcl ([] : ExclMap) ['q'] := by
  refine ⟨(toggleExcludedPhrase_spec [] ['k'] ['p']).1, by decide, ?_⟩
  exact (toggleExcludedPhrase_spec [] ['k'] ['p']).2.1 ['q'] (by decide)

end Melopoesis
